import Mathlib

/-
Verification of the facepace backend matching core (src/backend/main.py).

Numeric code (embeddings, norms, similarities) is modelled over the real
numbers; machine floats are treated as exact reals, as the spec does.
Decision-level code (quality gate thresholds, bounding-box areas, store
filtering) only ever compares and combines values that the source produces
with rational arithmetic, so those parts are modelled over the rationals and
stay executable.
-/

namespace FacePace

/-! ## Numeric primitives (main.py lines 401-407) -/

/-- Sum of squares of a vector's entries, the radicand of
numpy's `np.linalg.norm`. -/
def sumSq (v : List ℝ) : ℝ := v.foldr (fun x a => x * x + a) 0

/-- Euclidean norm of a vector: `np.linalg.norm(vec)`. -/
noncomputable def listNorm (v : List ℝ) : ℝ := Real.sqrt (sumSq v)

/-- The `1e-12` guard added to denominators in `l2_normalize` and `cosine`. -/
noncomputable def eps : ℝ := 1 / 10 ^ 12

/-- `l2_normalize(vec)`: `n = np.linalg.norm(vec) + 1e-12; return vec / n`
(main.py lines 401-403). -/
noncomputable def l2_normalize (v : List ℝ) : List ℝ :=
  v.map (fun x => x / (listNorm v + eps))

/-- Dot product of two vectors (`np.dot`; also one row of `enrolled_mat @ emb`). -/
def dotList : List ℝ → List ℝ → ℝ
  | x :: xs, y :: ys => x * y + dotList xs ys
  | _, _ => 0

theorem sumSq_nil : sumSq [] = 0 := rfl

theorem sumSq_cons (x : ℝ) (xs : List ℝ) : sumSq (x :: xs) = x * x + sumSq xs := rfl

theorem sumSq_nonneg (v : List ℝ) : 0 ≤ sumSq v := by
  induction v with
  | nil => simp [sumSq]
  | cons x xs ih =>
      rw [sumSq_cons]
      exact add_nonneg (mul_self_nonneg x) ih

theorem listNorm_nonneg (v : List ℝ) : 0 ≤ listNorm v := Real.sqrt_nonneg _

theorem eps_pos : 0 < eps := by norm_num [eps]

theorem mul_self_le_sumSq {v : List ℝ} {x : ℝ} (hx : x ∈ v) : x * x ≤ sumSq v := by
  induction v with
  | nil => cases hx
  | cons y ys ih =>
      rw [sumSq_cons]
      rcases List.mem_cons.mp hx with h | h
      · subst h; exact le_add_of_nonneg_right (sumSq_nonneg ys)
      · exact le_add_of_nonneg_of_le (mul_self_nonneg y) (ih h)

theorem abs_le_listNorm {v : List ℝ} {x : ℝ} (hx : x ∈ v) : |x| ≤ listNorm v := by
  have h1 : |x| = Real.sqrt (x * x) := (Real.sqrt_mul_self_eq_abs x).symm
  rw [h1, listNorm]
  exact Real.sqrt_le_sqrt (mul_self_le_sumSq hx)

theorem sumSq_map_div (v : List ℝ) {c : ℝ} (hc : c ≠ 0) :
    sumSq (v.map (fun x => x / c)) = sumSq v / c ^ 2 := by
  induction v with
  | nil => simp [sumSq]
  | cons x xs ih =>
      rw [List.map_cons, sumSq_cons, sumSq_cons, ih]
      field_simp
      ring

theorem listNorm_map_div (v : List ℝ) {c : ℝ} (hc : 0 < c) :
    listNorm (v.map (fun x => x / c)) = listNorm v / c := by
  rw [listNorm, sumSq_map_div v (ne_of_gt hc), Real.sqrt_div (sumSq_nonneg v),
    Real.sqrt_sq hc.le, listNorm]

theorem listNorm_l2_normalize (v : List ℝ) :
    listNorm (l2_normalize v) = listNorm v / (listNorm v + eps) := by
  have hpos : 0 < listNorm v + eps := add_pos_of_nonneg_of_pos (listNorm_nonneg v) eps_pos
  rw [l2_normalize, listNorm_map_div v hpos]

/-! ## First-max index (`np.argmax`: the index of the first occurrence of the
maximum value) -/

/-- Index of the first occurrence of the maximum value of a list, the
semantics of `np.argmax` (main.py line 851). -/
def argmaxIdx {β : Type} [LinearOrder β] [Inhabited β] : List β → ℕ
  | [] => 0
  | [_] => 0
  | x :: y :: l =>
      if x < (y :: l).getD (argmaxIdx (y :: l)) default then argmaxIdx (y :: l) + 1 else 0

theorem argmaxIdx_lt_length {β : Type} [LinearOrder β] [Inhabited β] :
    ∀ l : List β, l ≠ [] → argmaxIdx l < l.length
  | [], h => absurd rfl h
  | [_], _ => by simp [argmaxIdx]
  | x :: y :: l, _ => by
      rw [argmaxIdx]
      split
      · have := argmaxIdx_lt_length (y :: l) (by simp)
        simpa using Nat.succ_lt_succ this
      · simp

theorem argmaxIdx_is_max {β : Type} [LinearOrder β] [Inhabited β] :
    ∀ (l : List β) (j : ℕ), j < l.length →
      l.getD j default ≤ l.getD (argmaxIdx l) default
  | [], _, h => by simp at h
  | [x], j, h => by
      have hj : j = 0 := by simpa using Nat.lt_one_iff.mp (by simpa using h)
      subst hj
      simp [argmaxIdx]
  | x :: y :: l, j, h => by
      rw [argmaxIdx]
      split
      · rename_i hlt
        rw [List.getD_cons_succ]
        match j with
        | 0 => exact le_of_lt (by simpa using hlt)
        | j + 1 =>
            rw [List.getD_cons_succ]
            exact argmaxIdx_is_max (y :: l) j (by simpa using h)
      · rename_i hge
        push_neg at hge
        rw [List.getD_cons_zero]
        match j with
        | 0 => simp
        | j + 1 =>
            rw [List.getD_cons_succ]
            exact le_trans (argmaxIdx_is_max (y :: l) j (by simpa using h)) hge

theorem argmaxIdx_first {β : Type} [LinearOrder β] [Inhabited β] :
    ∀ (l : List β) (j : ℕ), j < argmaxIdx l →
      l.getD j default < l.getD (argmaxIdx l) default
  | [], j, h => by simp [argmaxIdx] at h
  | [x], j, h => by simp [argmaxIdx] at h
  | x :: y :: l, j, h => by
      rw [argmaxIdx] at h ⊢
      split
      · rename_i hlt
        rw [List.getD_cons_succ]
        match j with
        | 0 => simpa using hlt
        | j + 1 =>
            rw [List.getD_cons_succ]
            have hj : j < argmaxIdx (y :: l) := by
              have := h
              rw [if_pos hlt] at this
              omega
            exact argmaxIdx_first (y :: l) j hj
      · rename_i hge
        rw [if_neg hge] at h
        omega

/-! ## Quality gate (main.py lines 66-101) -/

/-- The metrics record returned by `_compute_quality_metrics`.  Fields carry
the values compared against the integer thresholds of `_quality_pass`;
`roll_abs = none` models Python's `None` (roll undefined). -/
structure QualityMetrics where
  face_width_px : ℚ
  sharpness : ℚ
  brightness : ℚ
  contrast : ℚ
  roll_abs : Option ℚ
  deriving DecidableEq

/-- `_quality_pass(metrics)` (main.py lines 82-101): the sequence of threshold
checks, each failing check setting `ok = False` and appending its reason; the
roll check only appends an advisory reason and never clears `ok`. -/
def quality_pass (m : QualityMetrics) : Bool × List String :=
  let ok0 := true
  let reasons0 : List String := []
  let ok1 := if m.face_width_px < 120 then false else ok0
  let reasons1 := if m.face_width_px < 120 then reasons0 ++ ["Face too small (<120 px)"] else reasons0
  let ok2 := if m.sharpness < 100 then false else ok1
  let reasons2 := if m.sharpness < 100 then reasons1 ++ ["Too blurry (low sharpness)"] else reasons1
  let ok3 := if ¬ (60 ≤ m.brightness ∧ m.brightness ≤ 200) then false else ok2
  let reasons3 := if ¬ (60 ≤ m.brightness ∧ m.brightness ≤ 200) then
      reasons2 ++ ["Lighting issue (too dark/bright)"] else reasons2
  let ok4 := if m.contrast < 30 then false else ok3
  let reasons4 := if m.contrast < 30 then reasons3 ++ ["Low contrast"] else reasons3
  let reasons5 := match m.roll_abs with
    | some r => if 10 < r then reasons4 ++ ["Turn head straighter (reduce roll)"] else reasons4
    | none => reasons4
  (ok4, reasons5)

/-- Four-quadrant arctangent, the semantics of `np.arctan2(y, x)`. -/
noncomputable def arctan2 (y x : ℝ) : ℝ :=
  if 0 < x then Real.arctan (y / x)
  else if x < 0 then
    (if 0 ≤ y then Real.arctan (y / x) + Real.pi else Real.arctan (y / x) - Real.pi)
  else if 0 < y then Real.pi / 2
  else if y < 0 then -(Real.pi / 2)
  else 0

/-- The roll computation of `_compute_quality_metrics` (main.py lines 67-73):
given the two eye landmark points, `roll_abs` is
`abs(degrees(arctan2(dy, dx)))` when `dx != 0` and undefined (`None`)
otherwise. -/
noncomputable def rollAbsOfEyes (left_eye right_eye : ℝ × ℝ) : Option ℝ :=
  let dx := right_eye.1 - left_eye.1
  let dy := right_eye.2 - left_eye.2
  if dx ≠ 0 then some |arctan2 dy dx * 180 / Real.pi| else none

/-! ## Faces, largest-face selection (main.py line 546) -/

/-- A detected face as returned by the extractor: bounding box corners and the
`normed_embedding` vector.  Box coordinates are rational (exact float
values); the embedding is a real vector. -/
structure Face where
  x1 : ℚ
  y1 : ℚ
  x2 : ℚ
  y2 : ℚ
  embedding : List ℝ

instance : Inhabited Face := ⟨⟨0, 0, 0, 0, []⟩⟩

/-- The sort key of `faces.sort(key=..., reverse=True)`:
`(f.bbox[2]-f.bbox[0])*(f.bbox[3]-f.bbox[1])`, the bounding-box area. -/
def area (f : Face) : ℚ := (f.x2 - f.x1) * (f.y2 - f.y1)

/-- One step of a stable descending insertion sort on the area key: the
incoming face (earlier in the original order) is placed before every face of
equal or smaller area.  This is the unique stable descending order, i.e. the
output of Python's stable `list.sort(key=area, reverse=True)`. -/
def insertFaceDesc (f : Face) : List Face → List Face
  | [] => [f]
  | g :: gs => if area g ≤ area f then f :: g :: gs else g :: insertFaceDesc f gs

/-- `faces.sort(key=lambda f: area(f), reverse=True)` (main.py line 546). -/
def sortFacesDesc (l : List Face) : List Face := l.foldr insertFaceDesc []

/-- `faces[0]` after the descending sort: the face enrollment embeds. -/
def selectFace (l : List Face) : Face := (sortFacesDesc l).headI

theorem sortFacesDesc_ne_nil {l : List Face} (h : l ≠ []) : sortFacesDesc l ≠ [] := by
  match l with
  | f :: rest =>
      show insertFaceDesc f (sortFacesDesc rest) ≠ []
      match sortFacesDesc rest with
      | [] => simp [insertFaceDesc]
      | g :: gs =>
          rw [insertFaceDesc]
          split <;> simp

theorem getD_map_of_lt {α β : Type} [Inhabited α] [Inhabited β] (g : α → β) (l : List α)
    (i : ℕ) (h : i < l.length) :
    (l.map g).getD i default = g (l.getD i default) := by
  rw [List.getD_eq_get _ _ (by simpa using h), List.getD_eq_get _ _ h, List.get_map]

theorem insertFaceDesc_cons (f g : Face) (gs : List Face) :
    insertFaceDesc f (g :: gs)
      = if area g ≤ area f then f :: g :: gs else g :: insertFaceDesc f gs := rfl

/-- The head of the stable descending sort is the element at the first-max
index of the area keys. -/
theorem selectFace_eq_argmax :
    ∀ l : List Face, l ≠ [] →
      selectFace l = l.getD (argmaxIdx (l.map area)) default
  | [], h => absurd rfl h
  | [f], _ => by simp [selectFace, sortFacesDesc, insertFaceDesc, argmaxIdx]
  | f :: g :: rest, _ => by
      have hne : (g :: rest : List Face) ≠ [] := by simp
      have ih := selectFace_eq_argmax (g :: rest) hne
      have hlen : argmaxIdx ((g :: rest).map area) < (g :: rest).length := by
        simpa using argmaxIdx_lt_length ((g :: rest).map area) (by simp)
      have hgd : ((g :: rest).map area).getD (argmaxIdx ((g :: rest).map area)) default
          = area ((g :: rest).getD (argmaxIdx ((g :: rest).map area)) default) :=
        getD_map_of_lt area (g :: rest) _ hlen
      obtain ⟨s, ss, hss⟩ : ∃ s ss, sortFacesDesc (g :: rest) = s :: ss := by
        match hx : sortFacesDesc (g :: rest) with
        | [] => exact absurd hx (sortFacesDesc_ne_nil hne)
        | s :: ss => exact ⟨s, ss, rfl⟩
      have hhead : s = (g :: rest).getD (argmaxIdx ((g :: rest).map area)) default := by
        rw [selectFace, hss] at ih
        exact ih
      have hMs : area s
          = ((g :: rest).map area).getD (argmaxIdx ((g :: rest).map area)) default := by
        rw [hgd, hhead]
      have harg : argmaxIdx ((f :: g :: rest).map area)
          = if area f < ((g :: rest).map area).getD (argmaxIdx ((g :: rest).map area)) default
            then argmaxIdx ((g :: rest).map area) + 1 else 0 := rfl
      rw [selectFace,
        show sortFacesDesc (f :: g :: rest) = insertFaceDesc f (sortFacesDesc (g :: rest))
          from rfl,
        hss, insertFaceDesc_cons, harg]
      by_cases hc :
          area f < ((g :: rest).map area).getD (argmaxIdx ((g :: rest).map area)) default
      · rw [if_pos hc, if_neg (by rw [hMs]; exact not_le.mpr hc)]
        show s = (f :: g :: rest).getD (argmaxIdx ((g :: rest).map area) + 1) default
        rw [List.getD_cons_succ]
        exact hhead
      · rw [if_neg hc, if_pos (by rw [hMs]; exact not_lt.mp hc)]
        rfl

theorem selectFace_mem {l : List Face} (h : l ≠ []) : selectFace l ∈ l := by
  rw [selectFace_eq_argmax l h]
  have hlen : argmaxIdx (l.map area) < l.length := by
    simpa using argmaxIdx_lt_length (l.map area) (by simpa using h)
  rw [List.getD_eq_get _ _ hlen]
  exact List.get_mem _ _ _

/-! ## The SQLite store (tables persons, embeddings, groups, group_members) -/

/-- One row of the `embeddings` table: `person_id`, the `embedding` BLOB
(decoded as a float vector), and the optional `created_at` column
(`/enroll` fills it with `time.time()`; `sync_group_embeddings` leaves it
NULL). -/
structure EmbRow where
  pid : String
  vec : List ℝ
  created_at : Option ℚ

/-- The database state.  `persons` maps `person_id` to `person_name`
(descriptive columns are out of core scope); `groups` maps `group_id` to
`group_name`; `group_members` holds `(group_id, person_id)` rows.  Row order
models SQLite insertion (rowid) order. -/
structure Store where
  persons : List (String × String)
  embeddings : List EmbRow
  groups : List (String × String)
  group_members : List (String × String)

def emptyStore : Store := ⟨[], [], [], []⟩

/-- `INSERT OR IGNORE INTO persons(person_id, person_name)` (main.py
lines 565-568): a no-op when the primary key is already present. -/
def insertPersonIfAbsent (st : Store) (pid name : String) : Store :=
  if st.persons.any (fun q => q.1 = pid) then st
  else { st with persons := st.persons ++ [(pid, name)] }

/-- `load_embeddings(filter_ids)` (main.py lines 582-606): with a non-empty
(truthy) filter the query restricts to `person_id IN filter_ids`; with `None`
or an empty list (both falsy) it loads every row.  The empty list models both
falsy values. -/
def load_embeddings (st : Store) (filter_ids : List String) : List (String × List ℝ) :=
  if filter_ids = [] then st.embeddings.map (fun r => (r.pid, r.vec))
  else (st.embeddings.filter (fun r => decide (r.pid ∈ filter_ids))).map
    (fun r => (r.pid, r.vec))

/-- `get_group_members_cached(group_id)` (main.py lines 622-633): the
`SELECT person_id FROM group_members WHERE group_id = ?` query.  The 60 s
TTL cache returns exactly this query's result (possibly staler); the cache
layer itself is a documented consistency relaxation and is modelled as
transparent. -/
def membersOf (st : Store) (gid : String) : List String :=
  (st.group_members.filter (fun q => decide (q.1 = gid))).map (fun q => q.2)

/-- `person_name_map()` (main.py lines 609-615) combined with the
`id_to_name.get(best_id, best_id)` lookup of the recognize loop. -/
def person_name_map (st : Store) : String → String :=
  fun pid => ((st.persons.find? (fun q => decide (q.1 = pid))).map Prod.snd).getD pid

/-! ## Enrollment (main.py lines 534-579) -/

structure EnrollReq where
  person_id : String
  person_name : String

inductive EnrollErr where
  | serviceNotReady : EnrollErr
  | noFaceDetected : EnrollErr
  | qualityTooLow : QualityMetrics → List String → EnrollErr

/-- The `/enroll` endpoint (main.py lines 534-579).  `faces` is the
extractor's output on the decoded image and `metricsOf` is
`_compute_quality_metrics` applied to that image (the image itself and its
pixel statistics are opaque here; every claim below holds for every
`metricsOf`).  Mirrors the source order: service check, no-face check,
largest-face selection, normalization, quality gate, and only then the two
inserts. -/
noncomputable def enroll (ready : Bool) (metricsOf : Face → QualityMetrics)
    (req : EnrollReq) (faces : List Face) (now : ℚ) (st : Store) :
    Store × Except EnrollErr String :=
  if ready = false then (st, Except.error EnrollErr.serviceNotReady)
  else match faces with
  | [] => (st, Except.error EnrollErr.noFaceDetected)
  | _ :: _ =>
    let face := selectFace faces
    let emb := l2_normalize face.embedding
    let m := metricsOf face
    let qp := quality_pass m
    if qp.1 then
      let st1 := insertPersonIfAbsent st req.person_id req.person_name
      (⟨st1.persons, st1.embeddings ++ [⟨req.person_id, emb, some now⟩],
        st1.groups, st1.group_members⟩,
       Except.ok req.person_id)
    else (st, Except.error (EnrollErr.qualityTooLow m qp.2))

/-- The `/person/delete` endpoint (main.py lines 767-777): cascade delete of
the person's embeddings, group memberships, and person row. -/
def delete_person (pid : String) (st : Store) : Store :=
  ⟨st.persons.filter (fun q => decide (q.1 ≠ pid)),
   st.embeddings.filter (fun r => decide (r.pid ≠ pid)),
   st.groups,
   st.group_members.filter (fun q => decide (q.2 ≠ pid))⟩

/-- The local-SQLite write phase of `/sync_group_embeddings` (main.py
lines 1311-1386).  `remoteGroup` is the Supabase group lookup (`none` models
"Group not found"), `members` the remote member list, `remoteEmb` the remote
`face_embeddings` vectors per person.  The handler upserts the group row,
replaces the group's membership rows, deletes the members' embedding rows and
inserts the remote vectors verbatim — with no `l2_normalize` and no insert
into `persons`. -/
def sync_group_embeddings (gid : String) (remoteGroup : Option String)
    (members : List String) (remoteEmb : String → List (List ℝ)) (st : Store) : Store :=
  match remoteGroup with
  | none => st
  | some gname =>
    if members = [] then st
    else
      let st1 : Store :=
        ⟨st.persons, st.embeddings,
         st.groups.filter (fun q => decide (q.1 ≠ gid)) ++ [(gid, gname)],
         st.group_members.filter (fun q => decide (q.1 ≠ gid))
           ++ members.dedup.map (fun p => (gid, p))⟩
      ⟨st1.persons,
       st1.embeddings.filter (fun r => decide (r.pid ∉ members))
         ++ (members.map (fun p => (remoteEmb p).map (fun v => (⟨p, v, none⟩ : EmbRow)))).join,
       st1.groups, st1.group_members⟩

/-- The data-model invariant claimed by the spec (spec.md section 3): every
embedding row has unit L2 norm within floating-point tolerance and an owning
`person_id` present in the persons table. -/
def storeInvariant (st : Store) : Prop :=
  ∀ r ∈ st.embeddings,
    |listNorm r.vec - 1| ≤ 1 / 10 ^ 6 ∧ ∃ q ∈ st.persons, q.1 = r.pid

/-! ## Recognition (main.py lines 811-893) -/

structure Box where
  x : ℚ
  y : ℚ
  width : ℚ
  height : ℚ

structure Match where
  person_id : String
  person_name : String
  confidence : ℝ
  box : Box

structure RecognizeReq where
  filter_ids : List String
  group_id : Option String

/-- Per-candidate similarities for one query face:
`sims = enrolled_mat @ emb` where `enrolled_mat` stacks the defensively
re-normalized candidate vectors (main.py lines 836, 849). -/
noncomputable def simsOf (enrolled : List (String × List ℝ)) (emb : List ℝ) : List ℝ :=
  enrolled.map (fun p => dotList (l2_normalize p.2) emb)

/-- The per-face body of the recognize loop (main.py lines 845-888):
normalize the face's embedding, take the first-max similarity, and emit a
match exactly when `best_score >= THRESHOLD`. -/
noncomputable def matchFace (θ : ℝ) (idToName : String → String)
    (enrolled : List (String × List ℝ)) (f : Face) : Option Match :=
  let emb := l2_normalize f.embedding
  let sims := simsOf enrolled emb
  let best_idx := argmaxIdx sims
  let best_score := sims.getD best_idx default
  if θ ≤ best_score then
    let best_id := (enrolled.map Prod.fst).getD best_idx ""
    some ⟨best_id, idToName best_id, best_score,
      ⟨f.x1, f.y1, f.x2 - f.x1, f.y2 - f.y1⟩⟩
  else none

/-- The `for f in faces` loop of recognize (main.py lines 845-891).
`elapsed k` is the wall-clock time `time.time() - start_time` observed at the
budget check after processing the face of index `k`; the loop breaks
cooperatively once it reaches 0.7 s, returning the matches accumulated so
far. -/
noncomputable def recognizeLoop (θ : ℝ) (idToName : String → String)
    (enrolled : List (String × List ℝ)) (elapsed : ℕ → ℝ) :
    List Face → ℕ → List Match
  | [], _ => []
  | f :: rest, k =>
    let acc := match matchFace θ idToName enrolled f with
      | some m => [m]
      | none => []
    if (7 : ℝ) / 10 ≤ elapsed k then acc
    else acc ++ recognizeLoop θ idToName enrolled elapsed rest (k + 1)

/-- The candidate-filter resolution of recognize (main.py lines 823-825):
`if not filter_ids and req.group_id: filter_ids = get_group_members_cached(...)`.
The empty list models Python's falsy `None`/`[]`. -/
def resolveFilterIds (req : RecognizeReq) (st : Store) : List String :=
  if req.filter_ids = [] then
    match req.group_id with
    | some gid => membersOf st gid
    | none => req.filter_ids
  else req.filter_ids

/-- The `/recognize` endpoint after the service check (main.py
lines 816-893): zero detected faces or an empty candidate set return an
empty match list; otherwise the per-face loop runs.  The function is
read-only on the store. -/
noncomputable def recognizeCore (θ : ℝ) (st : Store) (req : RecognizeReq)
    (faces : List Face) (elapsed : ℕ → ℝ) : List Match :=
  match faces with
  | [] => []
  | _ :: _ =>
    let enrolled := load_embeddings st (resolveFilterIds req st)
    match enrolled with
    | [] => []
    | _ :: _ => recognizeLoop θ (person_name_map st) enrolled elapsed faces 0

/-- The `/recognize` endpoint including the `face_app is None` service check
(main.py lines 813-814): the only error it can raise. -/
noncomputable def recognize (ready : Bool) (θ : ℝ) (st : Store) (req : RecognizeReq)
    (faces : List Face) (elapsed : ℕ → ℝ) : Except String (List Match) :=
  if ready = false then Except.error "Service not initialized"
  else Except.ok (recognizeCore θ st req faces elapsed)

/-- `THRESHOLD = float(os.environ.get("FACE_SIM_THRESHOLD", "0.42"))`
(main.py line 122): the default similarity threshold. -/
noncomputable def defaultThreshold : ℝ := 42 / 100

/-! ## Claim C2: quality gate pass/fail policy -/

set_option maxHeartbeats 3200000 in
/-- Claim C2: the quality gate passes a face iff face width >= 120,
sharpness >= 100, brightness within [60, 200] and contrast >= 30 (each
stated as the negation of the source's failure test); each failed check
appends exactly its reason string; a defined roll greater than 10 degrees
appends the advisory reason but never causes the gate to fail; roll is
defined exactly when the eye points' horizontal offset is nonzero; and a
face can pass with a non-empty reasons list. -/
theorem quality_gate_pass_iff (m : QualityMetrics) :
    (((quality_pass m).1 = true ↔
        (¬ (m.face_width_px < 120) ∧ ¬ (m.sharpness < 100)
          ∧ (60 ≤ m.brightness ∧ m.brightness ≤ 200) ∧ ¬ (m.contrast < 30)))
      ∧ (m.face_width_px < 120 ↔ "Face too small (<120 px)" ∈ (quality_pass m).2)
      ∧ (m.sharpness < 100 ↔ "Too blurry (low sharpness)" ∈ (quality_pass m).2)
      ∧ (¬ (60 ≤ m.brightness ∧ m.brightness ≤ 200) ↔
          "Lighting issue (too dark/bright)" ∈ (quality_pass m).2)
      ∧ (m.contrast < 30 ↔ "Low contrast" ∈ (quality_pass m).2)
      ∧ (∀ r : ℚ, m.roll_abs = some r →
          (10 < r ↔ "Turn head straighter (reduce roll)" ∈ (quality_pass m).2)))
    ∧ (∀ pl pr : ℝ × ℝ, (rollAbsOfEyes pl pr).isSome ↔ pr.1 - pl.1 ≠ 0)
    ∧ (∃ m2 : QualityMetrics, (quality_pass m2).1 = true ∧ (quality_pass m2).2 ≠ []) := by
  refine ⟨?_, ?_, ?_⟩
  · obtain ⟨w, s, b, c, roll⟩ := m
    rcases roll with - | r <;>
      by_cases h1 : w < 120 <;> by_cases h2 : s < 100 <;>
      by_cases h3 : 60 ≤ b ∧ b ≤ 200 <;> by_cases h4 : c < 30 <;>
      first
        | (by_cases h5 : 10 < r <;> simp_all [quality_pass, ← not_le])
        | simp_all [quality_pass, ← not_le]
  · intro pl pr
    rw [rollAbsOfEyes]
    by_cases hdx : pr.1 - pl.1 ≠ 0 <;> simp [hdx]
  · exact ⟨⟨200, 400, 130, 50, some 15⟩, by decide, by decide⟩

/-- Witness for C2: a 200 px wide, sharp, well-lit face with a 15 degree
roll passes the gate, even though the advisory reason is reported. -/
theorem quality_gate_pass_iff_witness :
    ((⟨200, 400, 130, 50, some 15⟩ : QualityMetrics).roll_abs = some 15 →
      (10 < (15 : ℚ) ↔
        "Turn head straighter (reduce roll)"
          ∈ (quality_pass ⟨200, 400, 130, 50, some 15⟩).2)) ∧
    ((quality_pass ⟨200, 400, 130, 50, some 15⟩).1 = true ↔
        (¬ ((200 : ℚ) < 120) ∧ ¬ ((400 : ℚ) < 100)
          ∧ ((60 : ℚ) ≤ 130 ∧ (130 : ℚ) ≤ 200) ∧ ¬ ((50 : ℚ) < 30))) :=
  ⟨(quality_gate_pass_iff ⟨200, 400, 130, 50, some 15⟩).1.2.2.2.2.2 15,
   (quality_gate_pass_iff ⟨200, 400, 130, 50, some 15⟩).1.1⟩

/-! ## Claim C7: largest-face selection in enroll -/

/-- The synthetic multi-face detection of the spec's testable property:
bounding boxes of areas 100, 500 and 300. -/
def demoFaces : List Face :=
  [⟨0, 0, 10, 10, []⟩, ⟨0, 0, 25, 20, []⟩, ⟨0, 0, 30, 10, []⟩]

/-- Claim C7: enroll selects the face of maximum bounding-box area
(x2-x1)*(y2-y1), first occurrence winning ties, and in particular selects
the area-500 box among areas [100, 500, 300]. -/
theorem enroll_selects_largest_face (faces : List Face) (h : faces ≠ []) :
    (∃ i, i < faces.length ∧ selectFace faces = faces.getD i default
      ∧ (∀ j, j < faces.length →
          area (faces.getD j default) ≤ area (faces.getD i default))
      ∧ (∀ j, j < i → area (faces.getD j default) < area (faces.getD i default)))
    ∧ area (selectFace demoFaces) = 500 := by
  have hmne : faces.map area ≠ [] := by simpa using h
  have hilen : argmaxIdx (faces.map area) < faces.length := by
    simpa using argmaxIdx_lt_length (faces.map area) hmne
  refine ⟨⟨argmaxIdx (faces.map area), hilen, selectFace_eq_argmax faces h, ?_, ?_⟩,
    by norm_num [demoFaces, selectFace, sortFacesDesc, insertFaceDesc, area]⟩
  · intro j hj
    have hbound := argmaxIdx_is_max (faces.map area) j (by simpa using hj)
    rwa [getD_map_of_lt area faces j hj, getD_map_of_lt area faces _ hilen] at hbound
  · intro j hj
    have hjlen : j < faces.length := lt_trans hj hilen
    have hbound := argmaxIdx_first (faces.map area) j hj
    rwa [getD_map_of_lt area faces j hjlen, getD_map_of_lt area faces _ hilen] at hbound

/-- Witness for C7: on the spec's synthetic boxes of areas [100, 500, 300],
the selected face has area 500. -/
theorem enroll_selects_largest_face_witness :
    demoFaces ≠ [] ∧ area (selectFace demoFaces) = 500 :=
  ⟨by simp [demoFaces], (enroll_selects_largest_face demoFaces (by simp [demoFaces])).2⟩

/-! ## Claim C5: quality failure during enroll leaves the store unchanged -/

/-- Claim C5: if the quality gate fails on the selected face, enroll returns
the QualityTooLow error carrying the computed metrics and reasons, and the
returned store is exactly the input store (every database write sits after
the quality check in the source). -/
theorem enroll_quality_fail_no_write (metricsOf : Face → QualityMetrics)
    (req : EnrollReq) (faces : List Face) (now : ℚ) (st : Store)
    (h1 : faces ≠ []) (h2 : (quality_pass (metricsOf (selectFace faces))).1 = false) :
    enroll true metricsOf req faces now st
      = (st, Except.error (EnrollErr.qualityTooLow (metricsOf (selectFace faces))
          (quality_pass (metricsOf (selectFace faces))).2)) := by
  match faces with
  | f :: rest => simp [enroll, h2]

/-- A metrics record failing every threshold, used to drive the quality-gate
failure path. -/
def failMetrics : QualityMetrics := ⟨0, 0, 0, 0, none⟩

/-- Witness for C5: a single-face enrollment whose metrics fail the gate
returns QualityTooLow and the untouched empty store. -/
theorem enroll_quality_fail_no_write_witness :
    (([⟨0, 0, 1, 1, []⟩] : List Face) ≠ [])
    ∧ (quality_pass ((fun _ => failMetrics) (selectFace [⟨0, 0, 1, 1, []⟩]))).1 = false
    ∧ enroll true (fun _ => failMetrics) ⟨"p", "P"⟩ [⟨0, 0, 1, 1, []⟩] 0 emptyStore
      = (emptyStore,
         Except.error (EnrollErr.qualityTooLow failMetrics (quality_pass failMetrics).2)) :=
  ⟨by simp, by decide,
   enroll_quality_fail_no_write (fun _ => failMetrics) ⟨"p", "P"⟩ [⟨0, 0, 1, 1, []⟩] 0
     emptyStore (by simp) (by decide)⟩

/-! ## Claim C9: absence of results is an empty list, not an error -/

/-- Claim C9: with the service initialized, recognize answers the zero-faces
case and the empty-candidate-set case with `ok []` — an empty match list,
never an error.  `recognize` reads the store and returns only the match
list, so no state changes on these paths. -/
theorem recognize_absence_yields_empty (θ : ℝ) (st : Store) (req : RecognizeReq)
    (faces : List Face) (elapsed : ℕ → ℝ)
    (h : faces = [] ∨ load_embeddings st (resolveFilterIds req st) = []) :
    recognize true θ st req faces elapsed = Except.ok [] := by
  rw [recognize, if_neg (by simp)]
  rcases h with h | h
  · subst h; rfl
  · cases faces with
    | nil => rfl
    | cons f rest => simp [recognizeCore, h]

/-- Witness for C9: a recognition call with zero detected faces returns
`ok []`. -/
theorem recognize_absence_yields_empty_witness :
    (([] : List Face) = []
      ∨ load_embeddings emptyStore (resolveFilterIds ⟨[], none⟩ emptyStore) = [])
    ∧ recognize true 0 emptyStore ⟨[], none⟩ [] (fun _ => 0) = Except.ok [] :=
  ⟨Or.inl rfl,
   recognize_absence_yields_empty 0 emptyStore ⟨[], none⟩ [] (fun _ => 0) (Or.inl rfl)⟩

/-! ## Claim C10: an empty candidate filter loads every enrolled embedding -/

/-- Claim C10: when the filter resolves to the empty list — an explicit
empty `filter_ids` with no group, or a group whose membership set is empty —
`load_embeddings` takes its unfiltered branch and returns every embedding
row, so recognition compares against all enrolled persons. -/
theorem load_embeddings_empty_filter_loads_all (st : Store) (req : RecognizeReq)
    (gid : String) (h1 : req.filter_ids = [])
    (h2 : req.group_id = none ∨ (req.group_id = some gid ∧ membersOf st gid = [])) :
    load_embeddings st (resolveFilterIds req st)
      = st.embeddings.map (fun r => (r.pid, r.vec)) := by
  rcases h2 with h2 | ⟨h2, h3⟩
  · rw [resolveFilterIds, if_pos h1, h2, load_embeddings, if_pos h1]
  · rw [resolveFilterIds, if_pos h1, h2, load_embeddings, if_pos h3]

/-- A store with one enrolled person and an empty group `g`, exercising the
empty-membership branch of the candidate filter. -/
def storeEmptyGroup : Store := ⟨[("a", "A")], [⟨"a", [], none⟩], [("g", "G")], []⟩

/-- Witness for C10: recognizing against the empty group `g` loads the full
embeddings table. -/
theorem load_embeddings_empty_filter_loads_all_witness :
    (⟨[], some "g"⟩ : RecognizeReq).filter_ids = []
    ∧ membersOf storeEmptyGroup "g" = []
    ∧ load_embeddings storeEmptyGroup (resolveFilterIds ⟨[], some "g"⟩ storeEmptyGroup)
      = storeEmptyGroup.embeddings.map (fun r => (r.pid, r.vec)) :=
  ⟨rfl, rfl,
   load_embeddings_empty_filter_loads_all storeEmptyGroup ⟨[], some "g"⟩ "g" rfl
     (Or.inr ⟨rfl, rfl⟩)⟩

/-! ## Claim C1: top-1 selection and inclusive threshold -/

theorem matchFace_eq (θ : ℝ) (idToName : String → String)
    (enrolled : List (String × List ℝ)) (f : Face) :
    matchFace θ idToName enrolled f
      = (if θ ≤ (simsOf enrolled (l2_normalize f.embedding)).getD
            (argmaxIdx (simsOf enrolled (l2_normalize f.embedding))) default
         then some ⟨(enrolled.map Prod.fst).getD
              (argmaxIdx (simsOf enrolled (l2_normalize f.embedding))) "",
            idToName ((enrolled.map Prod.fst).getD
              (argmaxIdx (simsOf enrolled (l2_normalize f.embedding))) ""),
            (simsOf enrolled (l2_normalize f.embedding)).getD
              (argmaxIdx (simsOf enrolled (l2_normalize f.embedding))) default,
            ⟨f.x1, f.y1, f.x2 - f.x1, f.y2 - f.y1⟩⟩
         else none) := rfl

/-- The top-1 decision property of the per-face matcher: there is an index
`i` into the loaded candidate list whose similarity is maximal, with every
earlier candidate strictly below it (first occurrence wins), and the face
yields exactly the match built from candidate `i` — its person id, the
similarity as confidence, and the face's box — iff the top-1 similarity
reaches the threshold (inclusive). -/
def Top1Spec (θ : ℝ) (idToName : String → String)
    (enrolled : List (String × List ℝ)) (f : Face) : Prop :=
  ∃ i, i < enrolled.length
    ∧ (∀ j, j < enrolled.length →
        (simsOf enrolled (l2_normalize f.embedding)).getD j default
          ≤ (simsOf enrolled (l2_normalize f.embedding)).getD i default)
    ∧ (∀ j, j < i →
        (simsOf enrolled (l2_normalize f.embedding)).getD j default
          < (simsOf enrolled (l2_normalize f.embedding)).getD i default)
    ∧ (θ ≤ (simsOf enrolled (l2_normalize f.embedding)).getD i default →
        matchFace θ idToName enrolled f
          = some ⟨(enrolled.map Prod.fst).getD i "",
              idToName ((enrolled.map Prod.fst).getD i ""),
              (simsOf enrolled (l2_normalize f.embedding)).getD i default,
              ⟨f.x1, f.y1, f.x2 - f.x1, f.y2 - f.y1⟩⟩)
    ∧ ((simsOf enrolled (l2_normalize f.embedding)).getD i default < θ →
        matchFace θ idToName enrolled f = none)

/-- Claim C1: for each detected face, the matcher selects the candidate of
maximum similarity (ties to the earliest position in the loaded list) and
emits the corresponding match iff the top-1 similarity is greater than or
equal to the threshold; equality is accepted, anything below yields no
match. -/
theorem matchFace_top1_threshold (θ : ℝ) (idToName : String → String)
    (enrolled : List (String × List ℝ)) (f : Face) (h : enrolled ≠ []) :
    Top1Spec θ idToName enrolled f := by
  have hlen : (simsOf enrolled (l2_normalize f.embedding)).length = enrolled.length := by
    simp [simsOf]
  have hsne : simsOf enrolled (l2_normalize f.embedding) ≠ [] := by
    simpa [simsOf] using h
  refine ⟨argmaxIdx (simsOf enrolled (l2_normalize f.embedding)), ?_, ?_, ?_, ?_, ?_⟩
  · rw [← hlen]
    exact argmaxIdx_lt_length _ hsne
  · intro j hj
    exact argmaxIdx_is_max _ j (by rw [hlen]; exact hj)
  · intro j hj
    exact argmaxIdx_first _ j hj
  · intro hle
    rw [matchFace_eq, if_pos hle]
  · intro hlt
    rw [matchFace_eq, if_neg (not_le.mpr hlt)]

/-- Witness for C1: a single enrolled candidate. -/
theorem matchFace_top1_threshold_witness :
    (([("a", [(1 : ℝ)])] : List (String × List ℝ)) ≠ [])
    ∧ Top1Spec defaultThreshold (fun p => p) [("a", [(1 : ℝ)])] ⟨0, 0, 1, 1, [(1 : ℝ)]⟩ :=
  ⟨by simp,
   matchFace_top1_threshold defaultThreshold (fun p => p) [("a", [(1 : ℝ)])]
     ⟨0, 0, 1, 1, [(1 : ℝ)]⟩ (by simp)⟩

/-! ## Claim C6: cooperative 0.7 s time budget of the recognize loop -/

theorem recognizeLoop_nil (θ : ℝ) (idToName : String → String)
    (enrolled : List (String × List ℝ)) (elapsed : ℕ → ℝ) (k : ℕ) :
    recognizeLoop θ idToName enrolled elapsed [] k = [] := rfl

theorem recognizeLoop_cons (θ : ℝ) (idToName : String → String)
    (enrolled : List (String × List ℝ)) (elapsed : ℕ → ℝ) (f : Face)
    (rest : List Face) (k : ℕ) :
    recognizeLoop θ idToName enrolled elapsed (f :: rest) k
      = (if (7 : ℝ) / 10 ≤ elapsed k
         then (match matchFace θ idToName enrolled f with
               | some m => [m]
               | none => [])
         else (match matchFace θ idToName enrolled f with
               | some m => [m]
               | none => []) ++
              recognizeLoop θ idToName enrolled elapsed rest (k + 1)) := rfl

/-- Once the elapsed time at the check of index `s + k` has reached 0.7 s,
faces beyond index `k` contribute nothing to the loop's result. -/
theorem recognizeLoop_stops (θ : ℝ) (idToName : String → String)
    (enrolled : List (String × List ℝ)) (elapsed : ℕ → ℝ) :
    ∀ (k : ℕ) (faces : List Face) (s : ℕ), (7 : ℝ) / 10 ≤ elapsed (s + k) →
      recognizeLoop θ idToName enrolled elapsed faces s
        = recognizeLoop θ idToName enrolled elapsed (faces.take (k + 1)) s := by
  intro k
  induction k with
  | zero =>
      intro faces s hs
      cases faces with
      | nil => simp
      | cons f rest =>
          have ht : (7 : ℝ) / 10 ≤ elapsed s := by simpa using hs
          rw [List.take_succ_cons, List.take_zero, recognizeLoop_cons, recognizeLoop_cons,
            if_pos ht, if_pos ht]
  | succ k ih =>
      intro faces s hs
      cases faces with
      | nil => simp
      | cons f rest =>
          rw [List.take_succ_cons, recognizeLoop_cons, recognizeLoop_cons]
          by_cases ht : (7 : ℝ) / 10 ≤ elapsed s
          · rw [if_pos ht, if_pos ht]
          · rw [if_neg ht, if_neg ht,
              ih rest (s + 1) (by rw [show s + 1 + k = s + (k + 1) from by omega]; exact hs)]

/-- Each processed face contributes at most one match. -/
theorem recognizeLoop_length_le (θ : ℝ) (idToName : String → String)
    (enrolled : List (String × List ℝ)) (elapsed : ℕ → ℝ) :
    ∀ (faces : List Face) (k : ℕ),
      (recognizeLoop θ idToName enrolled elapsed faces k).length ≤ faces.length
  | [], k => by simp [recognizeLoop_nil]
  | f :: rest, k => by
      rw [recognizeLoop_cons]
      have ih := recognizeLoop_length_le θ idToName enrolled elapsed rest (k + 1)
      rcases hmf : matchFace θ idToName enrolled f with - | m <;>
        (split <;> simp_all <;> omega)

/-- Claim C6: the recognize loop checks the elapsed wall-clock time after
each face; once it has reached 0.7 s at the check of index `k`, the faces
beyond index `k` are never processed, the accumulated matches are returned
(the loop is a total function — no exception), and at most `k + 1` matches
are produced. -/
theorem recognize_time_budget (θ : ℝ) (idToName : String → String)
    (enrolled : List (String × List ℝ)) (elapsed : ℕ → ℝ) (faces : List Face)
    (k : ℕ) (hk : (7 : ℝ) / 10 ≤ elapsed k) :
    recognizeLoop θ idToName enrolled elapsed faces 0
      = recognizeLoop θ idToName enrolled elapsed (faces.take (k + 1)) 0
    ∧ (recognizeLoop θ idToName enrolled elapsed faces 0).length ≤ k + 1 := by
  have h1 := recognizeLoop_stops θ idToName enrolled elapsed k faces 0 (by simpa using hk)
  refine ⟨h1, ?_⟩
  rw [h1]
  exact le_trans (recognizeLoop_length_le θ idToName enrolled elapsed _ 0)
    (List.length_take_le _ _)

/-- Witness for C6: 20 submitted faces with the per-face check observing
0.1 s increments; the budget expires at the check of index 6, so at most 7
faces are processed. -/
theorem recognize_time_budget_witness :
    (7 : ℝ) / 10 ≤ (fun k : ℕ => ((k : ℝ) + 1) / 10) 6
    ∧ (recognizeLoop defaultThreshold (fun p => p) [("a", [(1 : ℝ)])]
          (fun k : ℕ => ((k : ℝ) + 1) / 10)
          (List.replicate 20 (⟨0, 0, 1, 1, [(1 : ℝ)]⟩ : Face)) 0
        = recognizeLoop defaultThreshold (fun p => p) [("a", [(1 : ℝ)])]
            (fun k : ℕ => ((k : ℝ) + 1) / 10)
            ((List.replicate 20 (⟨0, 0, 1, 1, [(1 : ℝ)]⟩ : Face)).take 7) 0
       ∧ (recognizeLoop defaultThreshold (fun p => p) [("a", [(1 : ℝ)])]
            (fun k : ℕ => ((k : ℝ) + 1) / 10)
            (List.replicate 20 (⟨0, 0, 1, 1, [(1 : ℝ)]⟩ : Face)) 0).length ≤ 7) :=
  ⟨by norm_num,
   recognize_time_budget defaultThreshold (fun p => p) [("a", [(1 : ℝ)])]
     (fun k : ℕ => ((k : ℝ) + 1) / 10)
     (List.replicate 20 (⟨0, 0, 1, 1, [(1 : ℝ)]⟩ : Face)) 6 (by norm_num)⟩

/-! ## Claim C4: group filtering is sound -/

/-- A match produced by the per-face body names one of the loaded
candidates. -/
theorem matchFace_some_pid (θ : ℝ) (idToName : String → String)
    (enrolled : List (String × List ℝ)) (f : Face) (m : Match)
    (h : enrolled ≠ []) (hm : matchFace θ idToName enrolled f = some m) :
    m.person_id ∈ enrolled.map Prod.fst := by
  rw [matchFace_eq] at hm
  split at hm
  · have hmi := (Option.some.injEq _ _).mp hm
    have hlen : (simsOf enrolled (l2_normalize f.embedding)).length = enrolled.length := by
      simp [simsOf]
    have hi : argmaxIdx (simsOf enrolled (l2_normalize f.embedding))
        < (enrolled.map Prod.fst).length := by
      rw [List.length_map, ← hlen]
      exact argmaxIdx_lt_length _ (by simpa [simsOf] using h)
    have hpid : m.person_id = (enrolled.map Prod.fst).getD
        (argmaxIdx (simsOf enrolled (l2_normalize f.embedding))) "" := by
      rw [← hmi]
    rw [hpid, List.getD_eq_get _ _ hi]
    exact List.get_mem _ _ _
  · exact absurd hm (by simp)

/-- Every match returned by the recognize loop comes from the per-face body
applied to one of the submitted faces. -/
theorem mem_recognizeLoop (θ : ℝ) (idToName : String → String)
    (enrolled : List (String × List ℝ)) (elapsed : ℕ → ℝ) :
    ∀ (faces : List Face) (k : ℕ) (m : Match),
      m ∈ recognizeLoop θ idToName enrolled elapsed faces k →
      ∃ f, f ∈ faces ∧ matchFace θ idToName enrolled f = some m
  | [], k, m, hm => by simp [recognizeLoop_nil] at hm
  | f :: rest, k, m, hm => by
      rw [recognizeLoop_cons] at hm
      split at hm
      · rcases hmf : matchFace θ idToName enrolled f with - | m0 <;> rw [hmf] at hm
        · simp at hm
        · have hm0 : m = m0 := by simpa using hm
          exact ⟨f, by simp, by rw [hmf, hm0]⟩
      · rcases List.mem_append.mp hm with hacc | hrec
        · rcases hmf : matchFace θ idToName enrolled f with - | m0 <;> rw [hmf] at hacc
          · simp at hacc
          · have hm0 : m = m0 := by simpa using hacc
            exact ⟨f, by simp, by rw [hmf, hm0]⟩
        · obtain ⟨g, hg, hgm⟩ :=
            mem_recognizeLoop θ idToName enrolled elapsed rest (k + 1) m hrec
          exact ⟨g, List.mem_cons_of_mem f hg, hgm⟩

/-- A row loaded under a non-empty filter carries a person id from the
filter list. -/
theorem load_embeddings_pid_mem (st : Store) (filter_ids : List String)
    (p : String × List ℝ) (hne : filter_ids ≠ [])
    (hp : p ∈ load_embeddings st filter_ids) : p.1 ∈ filter_ids := by
  rw [load_embeddings, if_neg hne] at hp
  obtain ⟨r, hr, hpr⟩ := List.mem_map.mp hp
  have hf := (List.mem_filter.mp hr).2
  rw [← hpr]
  exact of_decide_eq_true hf

/-- Claim C4: with no explicit filter and a group id resolving to a
non-empty member set, every match returned by recognize names a member of
that group — a person outside the group is never returned. -/
theorem recognize_group_filter_sound (θ : ℝ) (st : Store) (req : RecognizeReq)
    (faces : List Face) (elapsed : ℕ → ℝ) (gid : String)
    (h1 : req.filter_ids = []) (h2 : req.group_id = some gid)
    (h3 : membersOf st gid ≠ []) :
    ∀ m ∈ recognizeCore θ st req faces elapsed, m.person_id ∈ membersOf st gid := by
  intro m hm
  have hfid : resolveFilterIds req st = membersOf st gid := by
    rw [resolveFilterIds, if_pos h1, h2]
  cases faces with
  | nil => simp [recognizeCore] at hm
  | cons f rest =>
      have hunfold : recognizeCore θ st req (f :: rest) elapsed
          = (match load_embeddings st (resolveFilterIds req st) with
             | [] => []
             | _ :: _ => recognizeLoop θ (person_name_map st)
                 (load_embeddings st (resolveFilterIds req st)) elapsed (f :: rest) 0) := rfl
      rw [hunfold] at hm
      cases henr : load_embeddings st (resolveFilterIds req st) with
      | nil => rw [henr] at hm; simp at hm
      | cons e es =>
          rw [henr] at hm
          obtain ⟨g, hg, hgm⟩ :=
            mem_recognizeLoop θ (person_name_map st) (e :: es) elapsed (f :: rest) 0 m hm
          have hpid := matchFace_some_pid θ (person_name_map st) (e :: es) g m (by simp) hgm
          obtain ⟨p, hp, hpm⟩ := List.mem_map.mp hpid
          rw [← henr] at hp
          have hmem := load_embeddings_pid_mem st (resolveFilterIds req st) p
            (by rw [hfid]; exact h3) hp
          rw [hfid] at hmem
          rw [← hpm]
          exact hmem

/-- Three enrolled persons; the group `g` contains only `a` and `b`. -/
def storeThreePersons : Store :=
  ⟨[("a", "A"), ("b", "B"), ("c", "C")],
   [⟨"a", [(1 : ℝ)], none⟩, ⟨"b", [(1 : ℝ)], none⟩, ⟨"c", [(1 : ℝ)], none⟩],
   [("g", "G")],
   [("g", "a"), ("g", "b")]⟩

/-- Witness for C4: recognizing against group `g` of `storeThreePersons`
can only ever name members of `g`. -/
theorem recognize_group_filter_sound_witness :
    (⟨[], some "g"⟩ : RecognizeReq).filter_ids = []
    ∧ membersOf storeThreePersons "g" ≠ []
    ∧ ∀ m ∈ recognizeCore defaultThreshold storeThreePersons ⟨[], some "g"⟩
        [⟨0, 0, 1, 1, [(1 : ℝ)]⟩] (fun _ => 0),
        m.person_id ∈ membersOf storeThreePersons "g" :=
  ⟨rfl, by decide,
   recognize_group_filter_sound defaultThreshold storeThreePersons ⟨[], some "g"⟩
     [⟨0, 0, 1, 1, [(1 : ℝ)]⟩] (fun _ => 0) "g" rfl rfl (by decide)⟩

/-! ## Claim C8: idempotence of l2_normalize -/

/-- Scalar core of the idempotence bound: one component of
`l2_normalize (l2_normalize v) - l2_normalize v` for a vector of norm `s`
and component `x`, when the norm is at least `1/10^3`. -/
theorem l2_key_bound (s x : ℝ) (hs : (1 : ℝ) / 10 ^ 3 ≤ s) (hx : |x| ≤ s) :
    |x / (s + eps) / (s / (s + eps) + eps) - x / (s + eps)| ≤ (1 : ℝ) / 10 ^ 6 := by
  have he : eps = 1 / 10 ^ 12 := rfl
  have hs0 : (0 : ℝ) < s := lt_of_lt_of_le (by norm_num) hs
  have ha : (0 : ℝ) < s + eps := add_pos hs0 eps_pos
  have hsa : (0 : ℝ) < s / (s + eps) := div_pos hs0 ha
  have hb : (0 : ℝ) < s / (s + eps) + eps := add_pos hsa eps_pos
  have hrw : x / (s + eps) / (s / (s + eps) + eps) - x / (s + eps)
      = (x / (s + eps)) * ((1 - (s / (s + eps) + eps)) / (s / (s + eps) + eps)) := by
    field_simp
    ring
  have h1b : |1 - (s / (s + eps) + eps)| = eps * |1 - (s + eps)| / (s + eps) := by
    have hq : 1 - (s / (s + eps) + eps) = eps * (1 - (s + eps)) / (s + eps) := by
      field_simp
      ring
    rw [hq, abs_div, abs_mul, abs_of_pos eps_pos, abs_of_pos ha]
  have hx1 : |x / (s + eps)| ≤ s / (s + eps) := by
    rw [abs_div, abs_of_pos ha]
    exact div_le_div_of_nonneg_right hx ha.le
  have hstep1 : |x / (s + eps) / (s / (s + eps) + eps) - x / (s + eps)|
      ≤ (s / (s + eps)) * (|1 - (s / (s + eps) + eps)| / (s / (s + eps) + eps)) := by
    rw [hrw, abs_mul, abs_div (1 - (s / (s + eps) + eps)) (s / (s + eps) + eps),
      abs_of_pos hb]
    exact mul_le_mul_of_nonneg_right hx1 (by positivity)
  have hstep2 : |1 - (s / (s + eps) + eps)| / (s / (s + eps) + eps)
      ≤ |1 - (s / (s + eps) + eps)| / (s / (s + eps)) :=
    div_le_div_of_nonneg_left (abs_nonneg _) hsa (le_add_of_nonneg_right eps_pos.le)
  have hcancel : (s / (s + eps)) * (|1 - (s / (s + eps) + eps)| / (s / (s + eps)))
      = |1 - (s / (s + eps) + eps)| := by
    rw [mul_comm]
    exact div_mul_cancel₀ _ (ne_of_gt hsa)
  have hstep3 : |x / (s + eps) / (s / (s + eps) + eps) - x / (s + eps)|
      ≤ |1 - (s / (s + eps) + eps)| := by
    calc |x / (s + eps) / (s / (s + eps) + eps) - x / (s + eps)|
        ≤ (s / (s + eps)) * (|1 - (s / (s + eps) + eps)| / (s / (s + eps) + eps)) := hstep1
      _ ≤ (s / (s + eps)) * (|1 - (s / (s + eps) + eps)| / (s / (s + eps))) :=
          mul_le_mul_of_nonneg_left hstep2 (le_of_lt hsa)
      _ = |1 - (s / (s + eps) + eps)| := hcancel
  refine le_trans hstep3 ?_
  rw [h1b]
  rcases le_or_lt (s + eps) 1 with hc | hc
  · have habs : |1 - (s + eps)| = 1 - (s + eps) := abs_of_nonneg (by linarith)
    rw [habs, div_le_iff ha, he] at *
    nlinarith [eps_pos]
  · have habs : |1 - (s + eps)| = (s + eps) - 1 := by
      rw [abs_sub_comm]
      exact abs_of_pos (by linarith)
    rw [habs, div_le_iff ha, he] at *
    nlinarith [eps_pos]

/-- One component of the normalized vector. -/
theorem l2_normalize_getD (v : List ℝ) (i : ℕ) (hi : i < v.length) :
    (l2_normalize v).getD i 0 = v.getD i 0 / (listNorm v + eps) := by
  rw [l2_normalize, List.getD_eq_get _ _ (by simpa using hi), List.get_map,
    List.getD_eq_get _ _ hi]

/-- Claim C8 (amended): l2_normalize divides by the Euclidean norm plus
epsilon 1e-12, and for every vector whose norm is bounded away from zero
(at least 1/10^3 — far below any unit-magnitude face embedding), normalizing
twice agrees with normalizing once to within 1e-6 in every component. -/
theorem l2_normalize_idempotent (v : List ℝ) (hv : (1 : ℝ) / 10 ^ 3 ≤ listNorm v)
    (i : ℕ) :
    |(l2_normalize (l2_normalize v)).getD i 0 - (l2_normalize v).getD i 0|
      ≤ (1 : ℝ) / 10 ^ 6 := by
  by_cases hi : i < v.length
  · have hlen1 : (l2_normalize v).length = v.length := by simp [l2_normalize]
    have hget1 := l2_normalize_getD v i hi
    have hget2 := l2_normalize_getD (l2_normalize v) i (by rw [hlen1]; exact hi)
    have hmem : v.getD i 0 ∈ v := by
      rw [List.getD_eq_get _ _ hi]
      exact List.get_mem _ _ _
    rw [hget2, hget1, listNorm_l2_normalize]
    exact l2_key_bound (listNorm v) (v.getD i 0) hv (abs_le_listNorm hmem)
  · have hlen1 : (l2_normalize v).length = v.length := by simp [l2_normalize]
    have hlen2 : (l2_normalize (l2_normalize v)).length = v.length := by
      simp [l2_normalize]
    rw [List.getD_eq_default _ _ (by rw [hlen2]; omega),
      List.getD_eq_default _ _ (by rw [hlen1]; omega)]
    norm_num

/-- Witness for C8 (amended): the vector `[1]` has norm 1 and its double
normalization agrees with its single normalization within 1e-6. -/
theorem l2_normalize_idempotent_witness :
    (1 : ℝ) / 10 ^ 3 ≤ listNorm [(1 : ℝ)]
    ∧ |(l2_normalize (l2_normalize [(1 : ℝ)])).getD 0 0
        - (l2_normalize [(1 : ℝ)]).getD 0 0| ≤ (1 : ℝ) / 10 ^ 6 := by
  have h1 : listNorm [(1 : ℝ)] = 1 := by
    rw [listNorm, show sumSq [(1 : ℝ)] = 1 by norm_num [sumSq], Real.sqrt_one]
  refine ⟨by rw [h1]; norm_num, ?_⟩
  exact l2_normalize_idempotent [(1 : ℝ)] (by rw [h1]; norm_num) 0

/-- Counterexample to C8 as stated: the vector `[1e-12]` has nonzero norm,
yet normalizing it twice moves its single component by far more than the
1e-6 tolerance (once-normalized it is `[1/2]`, twice-normalized almost
`[1]`), because the claim quantifies over every vector of nonzero norm. -/
theorem l2_normalize_not_idempotent_tiny :
    listNorm [(1 : ℝ) / 10 ^ 12] ≠ 0
    ∧ (1 : ℝ) / 10 ^ 6 <
        |(l2_normalize (l2_normalize [(1 : ℝ) / 10 ^ 12])).getD 0 0
          - (l2_normalize [(1 : ℝ) / 10 ^ 12]).getD 0 0| := by
  have hc : (0 : ℝ) < 1 / 10 ^ 12 := by norm_num
  have h1 : listNorm [(1 : ℝ) / 10 ^ 12] = 1 / 10 ^ 12 := by
    rw [listNorm,
      show sumSq [(1 : ℝ) / 10 ^ 12] = (1 / 10 ^ 12) * (1 / 10 ^ 12) by norm_num [sumSq],
      Real.sqrt_mul_self hc.le]
  have he : eps = 1 / 10 ^ 12 := rfl
  have hl2 : l2_normalize [(1 : ℝ) / 10 ^ 12] = [(1 : ℝ) / 2] := by
    rw [l2_normalize, h1, he]
    norm_num
  refine ⟨by rw [h1]; norm_num, ?_⟩
  rw [hl2]
  have h2 : listNorm [(1 : ℝ) / 2] = 1 / 2 := by
    rw [listNorm,
      show sumSq [(1 : ℝ) / 2] = (1 / 2) * (1 / 2) by norm_num [sumSq],
      Real.sqrt_mul_self (by norm_num)]
  rw [l2_normalize, h2, he]
  simp only [List.map_cons, List.map_nil, List.getD_cons_zero]
  rw [abs_of_nonneg (by norm_num)]
  norm_num

/-! ## Claim C3: unit-norm and referential integrity across write paths -/

theorem insertPersonIfAbsent_embeddings (st : Store) (pid name : String) :
    (insertPersonIfAbsent st pid name).embeddings = st.embeddings := by
  rw [insertPersonIfAbsent]
  split <;> rfl

theorem insertPersonIfAbsent_persons_mono (st : Store) (pid name : String)
    {q : String × String} (hq : q ∈ st.persons) :
    q ∈ (insertPersonIfAbsent st pid name).persons := by
  rw [insertPersonIfAbsent]
  split
  · exact hq
  · exact List.mem_append_left _ hq

theorem insertPersonIfAbsent_has (st : Store) (pid name : String) :
    ∃ q ∈ (insertPersonIfAbsent st pid name).persons, q.1 = pid := by
  rw [insertPersonIfAbsent]
  split
  · rename_i h
    obtain ⟨q, hq, hq2⟩ := List.any_eq_true.mp h
    exact ⟨q, hq, of_decide_eq_true hq2⟩
  · exact ⟨(pid, name), List.mem_append_right _ (by simp), rfl⟩

/-- The norm of a normalized vector is within tolerance of 1 whenever the
input norm is bounded away from zero. -/
theorem l2_normalize_unit (v : List ℝ) (hv : (1 : ℝ) / 10 ^ 3 ≤ listNorm v) :
    |listNorm (l2_normalize v) - 1| ≤ 1 / 10 ^ 6 := by
  have he : eps = 1 / 10 ^ 12 := rfl
  have hs0 : (0 : ℝ) < listNorm v := lt_of_lt_of_le (by norm_num) hv
  have ha : (0 : ℝ) < listNorm v + eps := add_pos hs0 eps_pos
  rw [listNorm_l2_normalize]
  have hq : listNorm v / (listNorm v + eps) - 1 = -(eps / (listNorm v + eps)) := by
    field_simp
  rw [hq, abs_neg, abs_of_pos (div_pos eps_pos ha), div_le_iff ha, he] at *
  nlinarith [eps_pos]

/-- Claim C3 (amended): the enroll path (which normalizes the selected
embedding and upserts the person row first) and the delete_person path
(which removes the person's embeddings together with the person) preserve
the unit-norm and referential-integrity invariant, for enrollments whose
extracted embeddings have norm at least 1/10^3.  The sync path does not
enforce the invariant (see the counterexample). -/
theorem store_invariant_enroll_delete (ready : Bool)
    (metricsOf : Face → QualityMetrics) (req : EnrollReq) (faces : List Face)
    (now : ℚ) (st : Store) (pid : String) (hst : storeInvariant st)
    (hnorm : ∀ f ∈ faces, (1 : ℝ) / 10 ^ 3 ≤ listNorm f.embedding) :
    storeInvariant (enroll ready metricsOf req faces now st).1
    ∧ storeInvariant (delete_person pid st) := by
  constructor
  · cases ready with
    | false => simpa [enroll] using hst
    | true =>
        cases faces with
        | nil => simpa [enroll] using hst
        | cons f rest =>
            by_cases hq : (quality_pass (metricsOf (selectFace (f :: rest)))).1
            · have hE : (enroll true metricsOf req (f :: rest) now st).1
                  = ⟨(insertPersonIfAbsent st req.person_id req.person_name).persons,
                     (insertPersonIfAbsent st req.person_id req.person_name).embeddings
                       ++ [⟨req.person_id,
                            l2_normalize (selectFace (f :: rest)).embedding, some now⟩],
                     (insertPersonIfAbsent st req.person_id req.person_name).groups,
                     (insertPersonIfAbsent st req.person_id req.person_name).group_members⟩ := by
                simp [enroll, hq]
              rw [hE]
              intro r hr
              rcases List.mem_append.mp hr with hold | hnew
              · rw [insertPersonIfAbsent_embeddings] at hold
                obtain ⟨hn, q, hmem, hid⟩ := hst r hold
                exact ⟨hn, q, insertPersonIfAbsent_persons_mono st _ _ hmem, hid⟩
              · have hr' : r = ⟨req.person_id,
                    l2_normalize (selectFace (f :: rest)).embedding, some now⟩ := by
                  simpa using hnew
                subst hr'
                refine ⟨?_, ?_⟩
                · exact l2_normalize_unit _
                    (hnorm _ (selectFace_mem (l := f :: rest) (by simp)))
                · exact insertPersonIfAbsent_has st req.person_id req.person_name
            · have hE : (enroll true metricsOf req (f :: rest) now st).1 = st := by
                simp [enroll, hq]
              rw [hE]
              exact hst
  · intro r hr
    have hr' := List.mem_filter.mp hr
    have hmem : r ∈ st.embeddings := hr'.1
    have hne : r.pid ≠ pid := of_decide_eq_true hr'.2
    obtain ⟨hn, q, hq, hqid⟩ := hst r hmem
    refine ⟨hn, q, List.mem_filter.mpr ⟨hq, decide_eq_true ?_⟩, hqid⟩
    rw [hqid]
    exact hne

/-- Witness for C3 (amended): enrolling a unit-norm face into the empty
store and deleting from the empty store both preserve the invariant. -/
theorem store_invariant_enroll_delete_witness :
    storeInvariant emptyStore
    ∧ (∀ f ∈ ([⟨0, 0, 1, 1, [(1 : ℝ)]⟩] : List Face),
        (1 : ℝ) / 10 ^ 3 ≤ listNorm f.embedding)
    ∧ (storeInvariant
        (enroll true (fun _ => failMetrics) ⟨"p", "P"⟩
          [⟨0, 0, 1, 1, [(1 : ℝ)]⟩] 0 emptyStore).1
       ∧ storeInvariant (delete_person "p" emptyStore)) := by
  have h1 : storeInvariant emptyStore := by
    intro r hr
    simp [emptyStore] at hr
  have h2 : ∀ f ∈ ([⟨0, 0, 1, 1, [(1 : ℝ)]⟩] : List Face),
      (1 : ℝ) / 10 ^ 3 ≤ listNorm f.embedding := by
    intro f hf
    have hf' : f = ⟨0, 0, 1, 1, [(1 : ℝ)]⟩ := by simpa using hf
    rw [hf']
    show (1 : ℝ) / 10 ^ 3 ≤ listNorm [(1 : ℝ)]
    rw [listNorm, show sumSq [(1 : ℝ)] = 1 by norm_num [sumSq], Real.sqrt_one]
    norm_num
  exact ⟨h1, h2,
    store_invariant_enroll_delete true (fun _ => failMetrics) ⟨"p", "P"⟩
      [⟨0, 0, 1, 1, [(1 : ℝ)]⟩] 0 emptyStore "p" h1 h2⟩

/-- Counterexample to C3 as stated: syncing group `g` with one remote member
`p1` whose remote embedding is the non-unit vector `[2]` into the empty
store (whose invariant holds) inserts an embedding row whose person id is in
no persons row — and whose vector was stored verbatim, unnormalized.  So
`sync_group_embeddings` does not enforce the invariant at write time. -/
theorem sync_breaks_store_invariant :
    storeInvariant emptyStore
    ∧ ¬ storeInvariant
        (sync_group_embeddings "g" (some "G") ["p1"] (fun _ => [[(2 : ℝ)]]) emptyStore) := by
  refine ⟨by intro r hr; simp [emptyStore] at hr, ?_⟩
  intro h
  have hrow : (⟨"p1", [(2 : ℝ)], none⟩ : EmbRow)
      ∈ (sync_group_embeddings "g" (some "G") ["p1"] (fun _ => [[(2 : ℝ)]])
          emptyStore).embeddings := by
    show (⟨"p1", [(2 : ℝ)], none⟩ : EmbRow) ∈ [(⟨"p1", [(2 : ℝ)], none⟩ : EmbRow)]
    simp
  obtain ⟨-, q, hq, -⟩ := h _ hrow
  have hP : (sync_group_embeddings "g" (some "G") ["p1"] (fun _ => [[(2 : ℝ)]])
      emptyStore).persons = [] := rfl
  rw [hP] at hq
  simp at hq

end FacePace
